import Mathlib

/-!
# wb_test: bounded-concurrency "Go" counter

A shallow embedding of `src/main.go`.

* Go `int` is 32 or 64 bits wide, depending on the platform (`IntSize`).  Values of
  type `int` are modelled as `Int`, and the one addition of the program,
  `counter.total += res.count`, wraps around like the Go addition (`wrapInt`).  A count
  returned by `bytes.Count` is at most half the length of a slice and needs no wrapping.
* A Go `error` is modelled by its message (`Option String`, `none` for `nil`).
* The network part of `handleUrl` (`http.Get` followed by `ioutil.ReadAll`) is an input
  of the model: a `FetchOutcome`.
* `main` and its goroutines are modelled as a state machine: `step` fires one atomic
  action of one goroutine, `exec` fires a schedule (a list of actions).  The mutex of
  `allResults` makes `addUrlResult` one atomic action.  The buffered channel `sem` is
  modelled by its capacity and the number of buffered values.
-/

namespace WbTest

/-! ## Data model -/

/-- urlResult of main.go: url, number of "Go" substrings in the response, occurred error.
The slice `results` holds pointers to records that are never written after creation, so
records are modelled as values. -/
structure urlResult where
  url : String
  count : Int
  error : Option String
deriving DecidableEq, Repr

/-- allResults of main.go; the mutex is represented by the atomicity of `addUrlResult`. -/
structure allResults where
  total : Int
  results : List urlResult
deriving DecidableEq, Repr

/-- The size of the Go type `int` on the platform the program is built for. -/
inductive IntSize where
  | bits32
  | bits64
deriving DecidableEq, Repr

/-- Half the number of values of `int`: 2^31 or 2^63, one more than the largest `int`. -/
def IntSize.half : IntSize → Int
  | .bits32 => 2147483648
  | .bits64 => 9223372036854775808

/-- The value an `int` takes for the mathematical result `x` of a Go integer operation:
`x` reduced modulo 2^32 or 2^64 into the range from `-half` to `half - 1`. -/
def wrapInt (sz : IntSize) (x : Int) : Int := (x + sz.half) % (2 * sz.half) - sz.half

/-- The method `(*urlResult).String`: the two `fmt.Sprintf` formats. -/
def urlResult.String (counter : urlResult) : String :=
  match counter.error with
  | some msg => counter.url ++ ": Error '" ++ msg ++ "'"
  | none => "Count for " ++ counter.url ++ ": " ++ toString counter.count

/-- The method `(*allResults).addUrlResult`: append, then `counter.total += res.count`,
an addition of two `int` values that wraps around on overflow. -/
def allResults.addUrlResult (sz : IntSize) (counter : allResults) (res : urlResult) :
    allResults :=
  { total := wrapInt sz (counter.total + res.count), results := counter.results ++ [res] }

/-- What the network gave to one call of `handleUrl`: `http.Get` failed, or
`ioutil.ReadAll` failed, or the whole body was read. Bytes are numbers. -/
inductive FetchOutcome where
  | getFailed (err : String)
  | readFailed (err : String)
  | body (b : List Nat)
deriving DecidableEq, Repr

/-- The scanning loop of `bytes.Count` for a separator of at least one byte: `skip` is
the number of bytes still to step over after a match (`s = s[i+len(sep):]`). -/
def countFrom (sep : List Nat) : Nat → List Nat → Nat
  | _, [] => 0
  | skip + 1, _ :: s => countFrom sep skip s
  | 0, b :: s =>
    if sep.isPrefixOf (b :: s) then countFrom sep (sep.length - 1) s + 1
    else countFrom sep 0 s

/-- The library function `bytes.Count(s, sep)` for a non-empty `sep` (the program calls
it with "Go" only): matches are taken greedily from the left and do not overlap. -/
def bytesCount (s sep : List Nat) : Nat := countFrom sep 0 s

/-- The bytes of the Go string "Go". -/
def goBytes : List Nat := [71, 111]

/-- The function `handleUrl`, given what the network answered. A missing field of a
composite literal has its zero value: `count` is 0 and `error` is nil when omitted. -/
def handleUrl (url : String) : FetchOutcome → urlResult
  | .getFailed err => { url := url, count := 0, error := some err }
  | .readFailed err => { url := url, count := 0, error := some err }
  | .body b => { url := url, count := (bytesCount b goBytes : Nat), error := none }

/-- The last two statements of `main`: one `fmt.Println` per stored result (which
prints its `String()`), then `fmt.Println("Total:", goCount.total)`. -/
def report (goCount : allResults) : List String :=
  goCount.results.map urlResult.String ++ ["Total: " ++ toString goCount.total]

/-! ## Reference notions used to state the properties -/

/-- Number of positions of `s` at which the two bytes "Go" start. Two such positions
are never adjacent, so occurrences of "Go" cannot overlap. -/
def occurrencesGo (s : List Nat) : Nat := (List.zip s s.tail).count (71, 111)

/-- The exact (mathematical) sum of `count` over the results that carry no error. -/
def okSum : List urlResult → Int
  | [] => 0
  | r :: rs => (if r.error = none then r.count else 0) + okSum rs

/-- The store after `addUrlResult` was applied, in order, to what `handleUrl` returned
for each call (a URL and what the network answered), starting from the empty store. -/
def storeAfter (sz : IntSize) (calls : List (String × FetchOutcome)) : allResults :=
  calls.foldl (fun st c => st.addUrlResult sz (handleUrl c.1 c.2)) { total := 0, results := [] }

/-! ## The program as a state machine -/

/-- Where a task goroutine `go func() { defer func() { <-sem }(); ... }()` stands. -/
inductive TaskPc where
  | start
  | fetched (res : urlResult)
  | added (res : urlResult)
  | exited (res : urlResult)
deriving DecidableEq, Repr

/-- One goroutine started by `main`, with the `url` it captured. -/
structure Task where
  url : String
  pc : TaskPc
deriving DecidableEq, Repr

/-- Where the main goroutine stands. `scan rest`: at `scanner.Scan()` with `rest` still
to be read; `acquire`: at `sem <- true` of the loop; `spawn`: at the `go` statement;
`drain i`: at the head of the last `for` loop; `fatal`: after `log.Fatal`;
`panicked`: `make(chan bool, k)` panicked; `done`: the report is printed. -/
inductive MainPc where
  | panicked
  | scan (rest : List String)
  | acquire (url : String) (rest : List String)
  | spawn (url : String) (rest : List String)
  | drain (i : Nat)
  | fatal
  | done
deriving DecidableEq, Repr

/-- The state of the whole process. `intSize` is the size of `int` on the platform,
`semCap`/`semLen` are `cap(sem)`/`len(sem)`, `stdinErr` is what `scanner.Err()` returns
once the lines are exhausted, `out` is standard output, line by line. -/
structure State where
  intSize : IntSize
  semCap : Nat
  semLen : Nat
  goCount : allResults
  main : MainPc
  tasks : List Task
  stdinErr : Option String
  out : List String
deriving DecidableEq, Repr

/-- The fetcher: what the network answers to the task with a given number (tasks are
numbered in the order of their `go` statements) asking for a given URL. -/
abbrev Fetcher := Nat → String → FetchOutcome

/-- One atomic action. `main`: the next statement of the main goroutine (a send goes to
the buffer). `fetch t`: task `t` returns from `handleUrl`. `add t`: task `t` runs
`addUrlResult`. `release t`: the deferred `<-sem` of task `t` takes a value from the
buffer. `handoff t`: a send of `main` is received directly by the deferred `<-sem` of
task `t` waiting on an empty buffer (the only way an unbuffered channel passes a value). -/
inductive Action where
  | main
  | fetch (t : Nat)
  | add (t : Nat)
  | release (t : Nat)
  | handoff (t : Nat)
deriving DecidableEq, Repr

/-- The process is still running: `main` has neither returned nor died. -/
def State.alive (s : State) : Bool :=
  match s.main with
  | .panicked => false
  | .fatal => false
  | .done => false
  | _ => true

/-- The next statement of the main goroutine; `none` when it is blocked or has ended. -/
def stepMain (s : State) : Option State :=
  match s.main with
  | .scan [] =>
    match s.stdinErr with
    | some _ => some { s with main := .fatal }
    | none => some { s with main := .drain 0 }
  | .scan (url :: rest) =>
    if url ≠ "" then some { s with main := .acquire url rest }
    else some { s with main := .scan rest }
  | .acquire url rest =>
    if s.semLen < s.semCap then some { s with semLen := s.semLen + 1, main := .spawn url rest }
    else none
  | .spawn url rest =>
    some { s with tasks := s.tasks ++ [{ url := url, pc := .start }], main := .scan rest }
  | .drain i =>
    if i < s.semCap then
      if s.semLen < s.semCap then some { s with semLen := s.semLen + 1, main := .drain (i + 1) }
      else none
    else some { s with out := s.out ++ report s.goCount, main := .done }
  | _ => none

/-- One action of the process; `none` when the action is not enabled. -/
def step (fetch : Fetcher) (s : State) : Action → Option State
  | .main => stepMain s
  | .fetch t =>
    match s.alive, s.tasks[t]? with
    | true, some ⟨url, .start⟩ =>
      some { s with tasks := s.tasks.set t ⟨url, .fetched (handleUrl url (fetch t url))⟩ }
    | _, _ => none
  | .add t =>
    match s.alive, s.tasks[t]? with
    | true, some ⟨url, .fetched res⟩ =>
      some { s with goCount := s.goCount.addUrlResult s.intSize res, tasks := s.tasks.set t ⟨url, .added res⟩ }
    | _, _ => none
  | .release t =>
    match s.alive, s.tasks[t]? with
    | true, some ⟨url, .added res⟩ =>
      if 0 < s.semLen then
        some { s with semLen := s.semLen - 1, tasks := s.tasks.set t ⟨url, .exited res⟩ }
      else none
    | _, _ => none
  | .handoff t =>
    match s.tasks[t]? with
    | some ⟨url, .added res⟩ =>
      if s.semLen = 0 then
        match s.main with
        | .acquire u rest =>
          some { s with main := .spawn u rest, tasks := s.tasks.set t ⟨url, .exited res⟩ }
        | .drain i =>
          if i < s.semCap then
            some { s with main := .drain (i + 1), tasks := s.tasks.set t ⟨url, .exited res⟩ }
          else none
        | _ => none
      else none
    | _ => none

/-- Fire a schedule, action by action; `none` as soon as an action is not enabled. -/
def exec (fetch : Fetcher) (s : State) : List Action → Option State
  | [] => some s
  | a :: as => (step fetch s a).bind fun s1 => exec fetch s1 as

/-- The state after `flag.Parse()`, `make(chan bool, *k)` and `&allResults{}` on a
platform with `int` of size `sz`: `k` is the value of the flag, `lines` are the lines `scanner.Text()` will return and `scanErr` is the
error the scanner ends with, if any. `make` panics for a negative size (its limit on
very large sizes is not modelled). -/
def init (sz : IntSize) (k : Int) (lines : List String) (scanErr : Option String) : State :=
  { intSize := sz
    semCap := k.toNat
    semLen := 0
    goCount := { total := 0, results := [] }
    main := if k < 0 then .panicked else .scan lines
    tasks := []
    stdinErr := scanErr
    out := [] }

/-- A state the program can be in: some schedule leads to it from the initial state. -/
def Reachable (sz : IntSize) (fetch : Fetcher) (k : Int) (lines : List String)
    (scanErr : Option String) (s : State) : Prop :=
  ∃ acts, exec fetch (init sz k lines scanErr) acts = some s

/-- A task that has been admitted and has not yet run its deferred `<-sem`. -/
def Task.holdsToken (t : Task) : Bool :=
  match t.pc with
  | .exited _ => false
  | _ => true

/-- The result a task has appended to the store, once it has. -/
def Task.appended (t : Task) : Option urlResult :=
  match t.pc with
  | .added res => some res
  | .exited res => some res
  | _ => none

/-- The result `handleUrl` returned to a task, once it has. -/
def Task.result (t : Task) : Option urlResult :=
  match t.pc with
  | .start => none
  | .fetched res => some res
  | .added res => some res
  | .exited res => some res

/-- The lines of the input that are not empty. -/
def nonBlank (lines : List String) : List String := lines.filter (fun l => l ≠ "")

/-- Number of values in the buffer of `sem` that were sent by `main` and do not belong
to a started task: the one sent just before a `go` statement, and those of the last loop. -/
def MainPc.tokens (semCap : Nat) : MainPc → Nat
  | .spawn _ _ => 1
  | .drain i => i
  | .done => semCap
  | _ => 0

/-- The scanning loop has ended without `log.Fatal`. -/
def MainPc.pastScan : MainPc → Bool
  | .drain _ => true
  | .done => true
  | _ => false

/-- The URLs for which `main` has yet to start a task. -/
def MainPc.pendingUrls : MainPc → List String
  | .scan rest => nonBlank rest
  | .acquire url rest => url :: nonBlank rest
  | .spawn url rest => url :: nonBlank rest
  | _ => []

/-- Number of actions a task still has to take. -/
def TaskPc.weight : TaskPc → Nat
  | .start => 3
  | .fetched _ => 2
  | .added _ => 1
  | .exited _ => 0

/-- A bound on the actions still to come from `main` and the tasks it will start. -/
def MainPc.weight (semCap : Nat) : MainPc → Nat
  | .scan rest => 6 * rest.length + semCap + 3
  | .acquire _ rest => 6 * rest.length + semCap + 8
  | .spawn _ rest => 6 * rest.length + semCap + 7
  | .drain i => semCap - i + 1
  | _ => 0

/-- A bound on the number of actions the process can still take. -/
def State.weight (s : State) : Nat :=
  s.main.weight s.semCap + (s.tasks.map fun t => t.pc.weight).sum

/-- The invariant of the state machine for a run on `lines` with a capacity that `make`
accepts. -/
structure Inv (fetch : Fetcher) (lines : List String) (s : State) : Prop where
  notPanicked : s.main ≠ .panicked
  tokens : s.semLen = s.tasks.countP Task.holdsToken + s.main.tokens s.semCap
  bounded : s.semLen ≤ s.semCap
  urls : s.tasks.map Task.url ++ s.main.pendingUrls = nonBlank lines
  stored : s.goCount.results.Perm (s.tasks.filterMap Task.appended)
  total : s.goCount.total = wrapInt s.intSize (okSum s.goCount.results)
  results : ∀ i t res, s.tasks[i]? = some t → t.result = some res →
    res = handleUrl t.url (fetch i t.url)
  output : s.out = if s.main = .done then report s.goCount else []
  fatal : s.main = .fatal → s.stdinErr ≠ none
  noErr : s.main.pastScan = true → s.stdinErr = none

/-! ## Concrete runs -/

/-- A fetcher for the scenario below: "http://a" answers a body with three "Go",
every other URL fails in `http.Get`. -/
def demoFetch : Fetcher := fun _ url =>
  if url = "http://a" then .body [71, 111, 32, 71, 111, 71, 111, 33] else .getFailed "no such host"

/-- A fetcher for which every request fails. -/
def failFetch : Fetcher := fun _ _ => .getFailed "connection refused"

/-- Three input lines, the second one empty. -/
def demoLines : List String := ["http://a", "", "http://b"]

/-- A complete schedule for `demoLines` with capacity 1: each task runs to its end
before the next line is read. -/
def demoSchedule : List Action :=
  [.main, .main, .main, .fetch 0, .add 0, .release 0,
   .main, .main, .main, .main, .fetch 1, .add 1, .release 1,
   .main, .main, .main]

/-- The state `demoSchedule` ends in with `demoFetch`. -/
def demoFinal : State :=
  { intSize := .bits64
    semCap := 1
    semLen := 1
    goCount :=
      { total := 3
        results := [⟨"http://a", 3, none⟩, ⟨"http://b", 0, some "no such host"⟩] }
    main := .done
    tasks := [⟨"http://a", .exited ⟨"http://a", 3, none⟩⟩,
      ⟨"http://b", .exited ⟨"http://b", 0, some "no such host"⟩⟩]
    stdinErr := none
    out := ["Count for http://a: 3", "http://b: Error 'no such host'", "Total: 3"] }

/-- The state `demoSchedule` ends in with `failFetch`. -/
def failFinal : State :=
  { intSize := .bits64
    semCap := 1
    semLen := 1
    goCount :=
      { total := 0
        results := [⟨"http://a", 0, some "connection refused"⟩,
          ⟨"http://b", 0, some "connection refused"⟩] }
    main := .done
    tasks := [⟨"http://a", .exited ⟨"http://a", 0, some "connection refused"⟩⟩,
      ⟨"http://b", .exited ⟨"http://b", 0, some "connection refused"⟩⟩]
    stdinErr := none
    out := ["http://a: Error 'connection refused'", "http://b: Error 'connection refused'",
      "Total: 0"] }

/-- The state one action before `demoFinal`: the last loop has sent its value and the
report has not been printed yet. -/
def joined : State := { demoFinal with main := .drain 1, out := [] }

/-- With capacity 2 both tasks of `demoLines` are started before either has fetched:
the schedule of seven `main` actions and the state it ends in. -/
def bothStarted : State :=
  { intSize := .bits64
    semCap := 2
    semLen := 2
    goCount := { total := 0, results := [] }
    main := .scan []
    tasks := [⟨"http://a", .start⟩, ⟨"http://b", .start⟩]
    stdinErr := none
    out := [] }

/-- A body made of `n` times "Go". -/
def goBody : Nat → List Nat
  | 0 => []
  | n + 1 => 71 :: 111 :: goBody n

/-- 64 calls of `handleUrl`, each answered by a body of 64 MiB that is 2^25 times "Go". -/
def wrapCalls : List (String × FetchOutcome) :=
  List.replicate 64 ("http://a", .body (goBody 33554432))

/-- With capacity 0 and one URL, `main` stops at its first `sem <- true`. -/
def blockedAtFirst : State :=
  { intSize := .bits64
    semCap := 0
    semLen := 0
    goCount := { total := 0, results := [] }
    main := .acquire "http://a" []
    tasks := []
    stdinErr := none
    out := [] }

/-! ## Sequential facts -/

theorem countFrom_go_match (s : List Nat) :
    countFrom goBytes 0 (71 :: 111 :: s) = countFrom goBytes 0 s + 1 := by
  simp [countFrom, goBytes, List.isPrefixOf]

theorem countFrom_go_skip (b : Nat) (s : List Nat) (h : ¬ goBytes.isPrefixOf (b :: s)) :
    countFrom goBytes 0 (b :: s) = countFrom goBytes 0 s := by
  simp [countFrom, h]

theorem occurrencesGo_match (s : List Nat) :
    occurrencesGo (71 :: 111 :: s) = occurrencesGo s + 1 := by
  cases s with
  | nil => simp [occurrencesGo]
  | cons c u => simp [occurrencesGo, List.count_cons]

theorem occurrencesGo_skip (b : Nat) (s : List Nat) (h : ¬ goBytes.isPrefixOf (b :: s)) :
    occurrencesGo (b :: s) = occurrencesGo s := by
  cases s with
  | nil => simp [occurrencesGo]
  | cons c u =>
    have hne : ¬ (b = 71 ∧ c = 111) := by
      intro hbc
      apply h
      simp [goBytes, List.isPrefixOf, hbc.1, hbc.2]
    have hpair : ((b, c) == ((71, 111) : Nat × Nat)) = false := by
      simpa using hne
    simp [occurrencesGo, List.count_cons, hpair]

theorem countFrom_go_eq_aux (n : Nat) :
    ∀ s : List Nat, s.length ≤ n → countFrom goBytes 0 s = occurrencesGo s := by
  induction n with
  | zero =>
    intro s hs
    have : s = [] := List.length_eq_zero.mp (Nat.le_zero.mp hs)
    subst this
    rfl
  | succ n ih =>
    intro s hs
    match s, hs with
    | [], _ => rfl
    | b :: t, hs =>
      by_cases hp : goBytes.isPrefixOf (b :: t)
      · match t, hs, hp with
        | [], _, hp => simp [goBytes, List.isPrefixOf] at hp
        | c :: u, hs, hp =>
          have hb : b = 71 ∧ c = 111 := by
            have h2 : 71 = b ∧ 111 = c := by simpa [goBytes, List.isPrefixOf] using hp
            exact ⟨h2.1.symm, h2.2.symm⟩
          obtain ⟨rfl, rfl⟩ := hb
          rw [countFrom_go_match, occurrencesGo_match, ih u (by simp at hs; omega)]
      · rw [countFrom_go_skip b t hp, occurrencesGo_skip b t hp, ih t (by simp at hs; omega)]

/-- The greedy scan of `bytes.Count` for "Go" counts the positions where "Go" starts. -/
theorem bytesCount_go_eq (s : List Nat) : bytesCount s goBytes = occurrencesGo s :=
  countFrom_go_eq_aux s.length s (Nat.le_refl _)

theorem okSum_append (xs ys : List urlResult) : okSum (xs ++ ys) = okSum xs + okSum ys := by
  induction xs with
  | nil => simp [okSum]
  | cons r rs ih => simp [okSum, ih, add_assoc]

theorem okSum_handleUrl (url : String) (o : FetchOutcome) :
    okSum [handleUrl url o] = (handleUrl url o).count := by
  cases o <;> simp [okSum, handleUrl]

theorem wrapInt_add (sz : IntSize) (a b : Int) :
    wrapInt sz (wrapInt sz a + b) = wrapInt sz (a + b) := by
  cases sz <;> simp only [wrapInt, IntSize.half] <;> omega

theorem wrapInt_of_bounds (sz : IntSize) (x : Int) (h1 : -sz.half ≤ x) (h2 : x < sz.half) :
    wrapInt sz x = x := by
  cases sz <;> simp only [wrapInt, IntSize.half] at * <;> omega

theorem wrapInt_zero (sz : IntSize) : wrapInt sz 0 = 0 := by
  cases sz <;> decide

theorem okSum_nonneg (rs : List urlResult) (h : ∀ r ∈ rs, 0 ≤ r.count) : 0 ≤ okSum rs := by
  induction rs with
  | nil => simp [okSum]
  | cons r rs ih =>
    have h1 := h r (List.mem_cons_self r rs)
    have h2 := ih (fun r1 hr1 => h r1 (List.mem_cons_of_mem r hr1))
    simp only [okSum]
    split <;> omega

theorem handleUrl_count_nonneg (url : String) (o : FetchOutcome) :
    0 ≤ (handleUrl url o).count := by
  cases o <;> simp [handleUrl]

/-- One more append of a `handleUrl` result keeps `total` equal to the wrapped
error-free sum. -/
theorem addUrlResult_keeps_sum (sz : IntSize) (st : allResults) (url : String)
    (o : FetchOutcome) (h : st.total = wrapInt sz (okSum st.results)) :
    (st.addUrlResult sz (handleUrl url o)).total
      = wrapInt sz (okSum (st.addUrlResult sz (handleUrl url o)).results) := by
  simp only [allResults.addUrlResult, okSum_append, okSum_handleUrl, h, wrapInt_add]

theorem foldl_keeps_sum (sz : IntSize) (calls : List (String × FetchOutcome)) :
    ∀ st : allResults, st.total = wrapInt sz (okSum st.results) →
      (calls.foldl (fun st c => st.addUrlResult sz (handleUrl c.1 c.2)) st).total
        = wrapInt sz
            (okSum (calls.foldl (fun st c => st.addUrlResult sz (handleUrl c.1 c.2)) st).results) := by
  induction calls with
  | nil => intro st h; simpa using h
  | cons c cs ih =>
    intro st h
    simp only [List.foldl_cons]
    exact ih _ (addUrlResult_keeps_sum sz st c.1 c.2 h)

theorem foldl_handleUrl_results (sz : IntSize) (calls : List (String × FetchOutcome)) :
    ∀ st : allResults,
      (calls.foldl (fun st c => st.addUrlResult sz (handleUrl c.1 c.2)) st).results
        = st.results ++ calls.map fun c => handleUrl c.1 c.2 := by
  induction calls with
  | nil => intro st; simp
  | cons c cs ih =>
    intro st
    rw [List.foldl_cons, ih]
    simp [allResults.addUrlResult]

theorem storeAfter_results (sz : IntSize) (calls : List (String × FetchOutcome)) :
    (storeAfter sz calls).results = calls.map fun c => handleUrl c.1 c.2 := by
  simp [storeAfter, foldl_handleUrl_results]

theorem foldl_addUrlResult_results (sz : IntSize) (rs : List urlResult) :
    ∀ st : allResults,
      (rs.foldl (allResults.addUrlResult sz) st).results = st.results ++ rs := by
  induction rs with
  | nil => intro st; simp
  | cons r rs ih =>
    intro st
    simp only [List.foldl_cons, ih, allResults.addUrlResult, List.append_assoc,
      List.singleton_append]

theorem bytesCount_goBody (n : Nat) : bytesCount (goBody n) goBytes = n := by
  induction n with
  | zero => rfl
  | succ n ih =>
    unfold bytesCount at ih ⊢
    rw [goBody, countFrom_go_match, ih]

theorem okSum_replicate (n : Nat) (url : String) (c : Int) :
    okSum (List.replicate n ⟨url, c, none⟩) = n * c := by
  induction n with
  | zero => simp [okSum]
  | succ n ih =>
    simp only [List.replicate_succ, okSum, ih, if_true]
    push_cast
    ring

/-! ## List facts about replacing one task -/

theorem set_split {α : Type} (y : α) :
    ∀ (l : List α) (t : Nat) (x : α), l[t]? = some x →
      ∃ l1 l2, l = l1 ++ x :: l2 ∧ l1.length = t ∧ l.set t y = l1 ++ y :: l2 := by
  intro l
  induction l with
  | nil => intro t x h; simp at h
  | cons a l ih =>
    intro t x h
    cases t with
    | zero =>
      simp at h
      subst h
      exact ⟨[], l, rfl, rfl, rfl⟩
    | succ t =>
      simp at h
      obtain ⟨l1, l2, h1, h2, h3⟩ := ih t x h
      refine ⟨a :: l1, l2, ?_, ?_, ?_⟩
      · simp [h1]
      · simp [h2]
      · simp [h3]

theorem countP_set_same {α : Type} (p : α → Bool) (l : List α) (t : Nat) (x y : α)
    (h : l[t]? = some x) (hp : p y = p x) : (l.set t y).countP p = l.countP p := by
  obtain ⟨l1, l2, h1, _, h3⟩ := set_split y l t x h
  rw [h3, h1]
  simp [List.countP_append, List.countP_cons, hp]

theorem countP_set_drop {α : Type} (p : α → Bool) (l : List α) (t : Nat) (x y : α)
    (h : l[t]? = some x) (hx : p x = true) (hy : p y = false) :
    (l.set t y).countP p + 1 = l.countP p := by
  obtain ⟨l1, l2, h1, _, h3⟩ := set_split y l t x h
  rw [h3, h1]
  simp [List.countP_append, List.countP_cons, hx, hy]
  omega

theorem map_set_same {α β : Type} (f : α → β) (l : List α) (t : Nat) (x y : α)
    (h : l[t]? = some x) (hf : f y = f x) : (l.set t y).map f = l.map f := by
  obtain ⟨l1, l2, h1, _, h3⟩ := set_split y l t x h
  rw [h3, h1]
  simp [hf]

theorem filterMap_set_same {α β : Type} (f : α → Option β) (l : List α) (t : Nat) (x y : α)
    (h : l[t]? = some x) (hf : f y = f x) : (l.set t y).filterMap f = l.filterMap f := by
  obtain ⟨l1, l2, h1, _, h3⟩ := set_split y l t x h
  rw [h3, h1]
  simp [List.filterMap_append, List.filterMap_cons, hf]

theorem filterMap_set_new {α β : Type} (f : α → Option β) (l : List α) (t : Nat) (x y : α)
    (r : β) (h : l[t]? = some x) (hx : f x = none) (hy : f y = some r) :
    (l.filterMap f ++ [r]).Perm ((l.set t y).filterMap f) := by
  obtain ⟨l1, l2, h1, _, h3⟩ := set_split y l t x h
  rw [h3, h1]
  simp only [List.filterMap_append, List.filterMap_cons, hx, hy]
  have h5 : (List.filterMap f l1 ++ List.filterMap f l2 ++ [r]).Perm
      (r :: (List.filterMap f l1 ++ List.filterMap f l2)) := by
    simpa using (List.perm_append_comm :
      (List.filterMap f l1 ++ List.filterMap f l2 ++ [r]).Perm
        ([r] ++ (List.filterMap f l1 ++ List.filterMap f l2)))
  exact h5.trans List.perm_middle.symm

theorem countP_pos_of_getElem {α : Type} (p : α → Bool) (l : List α) (t : Nat) (x : α)
    (h : l[t]? = some x) (hx : p x = true) : 0 < l.countP p := by
  obtain ⟨l1, l2, h1, _, _⟩ := set_split x l t x h
  rw [h1]
  simp [List.countP_append, List.countP_cons, hx]

theorem inv_init (sz : IntSize) (fetch : Fetcher) (k : Int) (lines : List String) (scanErr : Option String)
    (hk : 0 ≤ k) : Inv fetch lines (init sz k lines scanErr) := by
  have hk2 : ¬ k < 0 := not_lt.mpr hk
  constructor <;>
    simp [init, hk2, MainPc.tokens, MainPc.pendingUrls, MainPc.pastScan, okSum, wrapInt_zero]

theorem nonBlank_nil : nonBlank [] = [] := rfl

theorem nonBlank_cons_ne (url : String) (rest : List String) (h : url ≠ "") :
    nonBlank (url :: rest) = url :: nonBlank rest := by
  simp [nonBlank, List.filter_cons, h]

theorem nonBlank_cons_empty (rest : List String) : nonBlank ("" :: rest) = nonBlank rest := by
  simp [nonBlank, List.filter_cons]

theorem stepMain_inv (fetch : Fetcher) (lines : List String) (s s1 : State)
    (hinv : Inv fetch lines s) (h : stepMain s = some s1) : Inv fetch lines s1 := by
  obtain ⟨hnp, htok, hbd, hurls, hst, htot, hres, hout, hfat, hne⟩ := hinv
  unfold stepMain at h
  split at h
  · -- scan [] : scanner.Err()
    rename_i hm
    rw [hm] at htok hurls hout
    simp [MainPc.tokens, MainPc.pendingUrls, nonBlank_nil] at htok hurls hout
    split at h
    · rename_i msg herr
      cases h
      exact ⟨by simp, by simpa [MainPc.tokens] using htok, hbd,
        by simpa [MainPc.pendingUrls] using hurls, hst, htot, hres, by simpa using hout,
        fun _ => by simp [herr], by simp [MainPc.pastScan]⟩
    · rename_i herr
      cases h
      exact ⟨by simp, by simpa [MainPc.tokens] using htok, hbd,
        by simpa [MainPc.pendingUrls] using hurls, hst, htot, hres, by simpa using hout,
        by simp, fun _ => herr⟩
  · -- scan (url :: rest)
    rename_i url rest hm
    rw [hm] at htok hurls hout
    simp [MainPc.tokens, MainPc.pendingUrls] at htok hurls hout
    split at h
    · cases h
      rename_i hne
      rw [nonBlank_cons_ne url rest hne] at hurls
      exact ⟨by simp, by simpa [MainPc.tokens] using htok, hbd,
        by simpa [MainPc.pendingUrls] using hurls, hst, htot, hres, by simpa using hout,
        by simp, by simp [MainPc.pastScan]⟩
    · cases h
      rename_i hne
      have hu : url = "" := by simpa using hne
      subst hu
      rw [nonBlank_cons_empty] at hurls
      exact ⟨by simp, by simpa [MainPc.tokens] using htok, hbd,
        by simpa [MainPc.pendingUrls] using hurls, hst, htot, hres, by simpa using hout,
        by simp, by simp [MainPc.pastScan]⟩
  · -- acquire : sem <- true
    rename_i url rest hm
    rw [hm] at htok hurls hout
    simp [MainPc.tokens, MainPc.pendingUrls] at htok hurls hout
    split at h
    · cases h
      rename_i hlt
      exact ⟨by simp, by simp [MainPc.tokens]; omega, by simp; omega,
        by simpa [MainPc.pendingUrls] using hurls, hst, htot, hres, by simpa using hout,
        by simp, by simp [MainPc.pastScan]⟩
    · cases h
  · -- spawn : go func()
    rename_i url rest hm
    rw [hm] at htok hurls hout
    simp [MainPc.tokens, MainPc.pendingUrls] at htok hurls hout
    cases h
    refine ⟨by simp, ?_, hbd, ?_, ?_, htot, ?_, by simpa using hout, by simp,
      by simp [MainPc.pastScan]⟩
    · simp [MainPc.tokens, List.countP_append, Task.holdsToken]
      omega
    · simpa [MainPc.pendingUrls] using hurls
    · simpa [List.filterMap_append, Task.appended] using hst
    · intro i t res hi hr
      simp only at hi
      by_cases hlt : i < s.tasks.length
      · rw [List.getElem?_append_left hlt] at hi
        exact hres i t res hi hr
      · have hge : s.tasks.length ≤ i := Nat.le_of_not_lt hlt
        rw [List.getElem?_append_right hge] at hi
        cases hj : i - s.tasks.length with
        | zero =>
          rw [hj] at hi
          simp at hi
          subst hi
          simp [Task.result] at hr
        | succ j =>
          rw [hj] at hi
          simp at hi
  · -- drain i
    rename_i i hm
    rw [hm] at htok hurls hout
    simp [MainPc.tokens, MainPc.pendingUrls] at htok hurls hout
    split at h
    · split at h
      · cases h
        exact ⟨by simp, by simp [MainPc.tokens]; omega, by simp; omega,
          by simpa [MainPc.pendingUrls] using hurls, hst, htot, hres, by simpa using hout,
          by simp, fun _ => hne (by simp [hm, MainPc.pastScan])⟩
      · cases h
    · cases h
      rename_i hlt
      have hi : i = s.semCap := by omega
      exact ⟨by simp, by simp [MainPc.tokens]; omega, hbd,
        by simpa [MainPc.pendingUrls] using hurls, hst, htot, hres, by simp [hout],
        by simp, fun _ => hne (by simp [hm, MainPc.pastScan])⟩
  · cases h

theorem alive_not_done (s : State) (h : s.alive = true) : s.main ≠ .done := by
  intro hd
  simp [State.alive, hd] at h

theorem results_set (fetch : Fetcher) (tasks : List Task) (t : Nat) (y : Task)
    (hres : ∀ i t1 res, tasks[i]? = some t1 → t1.result = some res →
      res = handleUrl t1.url (fetch i t1.url))
    (hy : ∀ res, y.result = some res → res = handleUrl y.url (fetch t y.url)) :
    ∀ i t1 res, (tasks.set t y)[i]? = some t1 → t1.result = some res →
      res = handleUrl t1.url (fetch i t1.url) := by
  intro i t1 res hi hr
  by_cases hti : t = i
  · subst hti
    rw [List.getElem?_set] at hi
    simp only [if_true] at hi
    split at hi
    · cases hi
      exact hy res hr
    · cases hi
  · rw [List.getElem?_set_ne hti] at hi
    exact hres i t1 res hi hr

theorem step_inv (fetch : Fetcher) (lines : List String) (s s1 : State) (a : Action)
    (hinv : Inv fetch lines s) (h : step fetch s a = some s1) : Inv fetch lines s1 := by
  cases a with
  | main => exact stepMain_inv fetch lines s s1 hinv h
  | fetch t =>
    obtain ⟨hnp, htok, hbd, hurls, hst, htot, hres, hout, hfat, hne⟩ := hinv
    simp only [step] at h
    split at h
    · rename_i url halive hget
      cases h
      have e1 := countP_set_same Task.holdsToken s.tasks t ⟨url, .start⟩
        ⟨url, .fetched (handleUrl url (fetch t url))⟩ hget rfl
      have e2 := map_set_same Task.url s.tasks t ⟨url, .start⟩
        ⟨url, .fetched (handleUrl url (fetch t url))⟩ hget rfl
      have e3 := filterMap_set_same Task.appended s.tasks t ⟨url, .start⟩
        ⟨url, .fetched (handleUrl url (fetch t url))⟩ hget rfl
      refine ⟨hnp, ?_, hbd, ?_, ?_, htot, ?_, hout, hfat, hne⟩
      · show s.semLen = List.countP Task.holdsToken (s.tasks.set t _) + _
        rw [e1]
        exact htok
      · show List.map Task.url (s.tasks.set t _) ++ _ = _
        rw [e2]
        exact hurls
      · show s.goCount.results.Perm (List.filterMap Task.appended (s.tasks.set t _))
        rw [e3]
        exact hst
      · exact results_set fetch s.tasks t _ hres (by
          intro res hr
          simp [Task.result] at hr
          exact hr.symm)
    · cases h
  | add t =>
    obtain ⟨hnp, htok, hbd, hurls, hst, htot, hres, hout, hfat, hne⟩ := hinv
    simp only [step] at h
    split at h
    · rename_i url res halive hget
      cases h
      have hr : res = handleUrl url (fetch t url) :=
        hres t ⟨url, .fetched res⟩ res hget rfl
      have hnd := alive_not_done s halive
      have e1 := countP_set_same Task.holdsToken s.tasks t ⟨url, .fetched res⟩
        ⟨url, .added res⟩ hget rfl
      have e2 := map_set_same Task.url s.tasks t ⟨url, .fetched res⟩
        ⟨url, .added res⟩ hget rfl
      have e3 := filterMap_set_new Task.appended s.tasks t ⟨url, .fetched res⟩
        ⟨url, .added res⟩ res hget rfl rfl
      refine ⟨hnp, ?_, hbd, ?_, ?_, ?_, ?_, ?_, hfat, hne⟩
      · show s.semLen = List.countP Task.holdsToken (s.tasks.set t _) + _
        rw [e1]
        exact htok
      · show List.map Task.url (s.tasks.set t _) ++ _ = _
        rw [e2]
        exact hurls
      · have h1 : (s.goCount.results ++ [res]).Perm
            (s.tasks.filterMap Task.appended ++ [res]) := hst.append_right [res]
        exact h1.trans e3
      · rw [hr]
        exact addUrlResult_keeps_sum s.intSize s.goCount url (fetch t url) htot
      · exact results_set fetch s.tasks t _ hres (by
          intro res1 hr1
          simp [Task.result] at hr1
          rw [← hr1]
          exact hr)
      · simpa [hnd] using hout
    · cases h
  | release t =>
    obtain ⟨hnp, htok, hbd, hurls, hst, htot, hres, hout, hfat, hne⟩ := hinv
    simp only [step] at h
    split at h
    · rename_i url res halive hget
      split at h
      · cases h
        rename_i hpos
        have hr : res = handleUrl url (fetch t url) :=
          hres t ⟨url, .added res⟩ res hget rfl
        have hc := countP_set_drop Task.holdsToken s.tasks t ⟨url, .added res⟩
          ⟨url, .exited res⟩ hget rfl rfl
        have e2 := map_set_same Task.url s.tasks t ⟨url, .added res⟩
          ⟨url, .exited res⟩ hget rfl
        have e3 := filterMap_set_same Task.appended s.tasks t ⟨url, .added res⟩
          ⟨url, .exited res⟩ hget rfl
        refine ⟨hnp, ?_, ?_, ?_, ?_, htot, ?_, hout, hfat, hne⟩
        · show s.semLen - 1 = List.countP Task.holdsToken (s.tasks.set t _)
            + MainPc.tokens s.semCap s.main
          omega
        · show s.semLen - 1 ≤ s.semCap
          omega
        · show List.map Task.url (s.tasks.set t _) ++ _ = _
          rw [e2]
          exact hurls
        · show s.goCount.results.Perm (List.filterMap Task.appended (s.tasks.set t _))
          rw [e3]
          exact hst
        · exact results_set fetch s.tasks t _ hres (by
            intro res1 hr1
            simp [Task.result] at hr1
            rw [← hr1]
            exact hr)
      · cases h
    · cases h
  | handoff t =>
    exfalso
    simp only [step] at h
    split at h
    · rename_i url res hget
      have hpos := countP_pos_of_getElem Task.holdsToken s.tasks t _ hget rfl
      have htok := hinv.tokens
      split at h
      · rename_i hz
        omega
      · cases h
    · cases h

theorem exec_inv (fetch : Fetcher) (lines : List String) (acts : List Action) :
    ∀ s s1 : State, Inv fetch lines s → exec fetch s acts = some s1 → Inv fetch lines s1 := by
  induction acts with
  | nil =>
    intro s s1 hinv h
    simp [exec] at h
    subst h
    exact hinv
  | cons a as ih =>
    intro s s1 hinv h
    simp only [exec] at h
    cases hs : step fetch s a with
    | none => simp [hs] at h
    | some s2 =>
      simp [hs] at h
      exact ih s2 s1 (step_inv fetch lines s s2 a hinv hs) h

theorem reachable_inv (sz : IntSize) (fetch : Fetcher) (k : Int) (lines : List String)
    (scanErr : Option String) (s : State) (hk : 0 ≤ k)
    (h : Reachable sz fetch k lines scanErr s) : Inv fetch lines s := by
  obtain ⟨acts, hacts⟩ := h
  exact exec_inv fetch lines acts _ s (inv_init sz fetch k lines scanErr hk) hacts

/-! ## Frame, progress and termination of the state machine -/

theorem step_frame (fetch : Fetcher) (s s1 : State) (a : Action)
    (h : step fetch s a = some s1) : s1.semCap = s.semCap ∧ s1.stdinErr = s.stdinErr := by
  cases a with
  | main =>
    simp only [step, stepMain] at h
    split at h <;> (try split at h) <;> (try split at h) <;>
      first | (cases h; done) | (cases h; exact ⟨rfl, rfl⟩)
  | fetch t =>
    simp only [step] at h
    split at h <;> first | (cases h; done) | (cases h; exact ⟨rfl, rfl⟩)
  | add t =>
    simp only [step] at h
    split at h <;> first | (cases h; done) | (cases h; exact ⟨rfl, rfl⟩)
  | release t =>
    simp only [step] at h
    split at h <;> (try split at h) <;>
      first | (cases h; done) | (cases h; exact ⟨rfl, rfl⟩)
  | handoff t =>
    simp only [step] at h
    split at h <;> (try split at h) <;> (try split at h) <;> (try split at h) <;>
      first | (cases h; done) | (cases h; exact ⟨rfl, rfl⟩)

theorem step_intSize (fetch : Fetcher) (s s1 : State) (a : Action)
    (h : step fetch s a = some s1) : s1.intSize = s.intSize := by
  cases a with
  | main =>
    simp only [step, stepMain] at h
    split at h <;> (try split at h) <;> (try split at h) <;>
      first | (cases h; done) | (cases h; rfl)
  | fetch t =>
    simp only [step] at h
    split at h <;> first | (cases h; done) | (cases h; rfl)
  | add t =>
    simp only [step] at h
    split at h <;> first | (cases h; done) | (cases h; rfl)
  | release t =>
    simp only [step] at h
    split at h <;> (try split at h) <;>
      first | (cases h; done) | (cases h; rfl)
  | handoff t =>
    simp only [step] at h
    split at h <;> (try split at h) <;> (try split at h) <;> (try split at h) <;>
      first | (cases h; done) | (cases h; rfl)

theorem exec_intSize (fetch : Fetcher) (acts : List Action) :
    ∀ s s1 : State, exec fetch s acts = some s1 → s1.intSize = s.intSize := by
  induction acts with
  | nil =>
    intro s s1 h
    simp [exec] at h
    subst h
    rfl
  | cons a as ih =>
    intro s s1 h
    simp only [exec] at h
    cases hs : step fetch s a with
    | none => simp [hs] at h
    | some s2 =>
      simp [hs] at h
      exact (ih s2 s1 h).trans (step_intSize fetch s s2 a hs)

theorem exec_frame (fetch : Fetcher) (acts : List Action) :
    ∀ s s1 : State, exec fetch s acts = some s1 →
      s1.semCap = s.semCap ∧ s1.stdinErr = s.stdinErr := by
  induction acts with
  | nil =>
    intro s s1 h
    simp [exec] at h
    subst h
    exact ⟨rfl, rfl⟩
  | cons a as ih =>
    intro s s1 h
    simp only [exec] at h
    cases hs : step fetch s a with
    | none => simp [hs] at h
    | some s2 =>
      simp [hs] at h
      obtain ⟨h1, h2⟩ := ih s2 s1 h
      obtain ⟨h3, h4⟩ := step_frame fetch s s2 a hs
      exact ⟨h1.trans h3, h2.trans h4⟩

/-- Once `main` has ended (report printed, `log.Fatal`, or panic in `make`) nothing
runs any more. -/
theorem step_ended (fetch : Fetcher) (s : State) (a : Action) (h : s.alive = false) :
    step fetch s a = none := by
  have hm : s.main = .panicked ∨ s.main = .fatal ∨ s.main = .done := by
    unfold State.alive at h
    split at h <;> simp_all
  cases a with
  | main => rcases hm with hm | hm | hm <;> simp [step, stepMain, hm]
  | fetch t => simp [step, h]
  | add t => simp [step, h]
  | release t => simp [step, h]
  | handoff t =>
    simp only [step]
    split
    · split
      · rcases hm with hm | hm | hm <;> simp [hm]
      · rfl
    · rfl

theorem exec_ended (fetch : Fetcher) (s s1 : State) (acts : List Action)
    (h : s.alive = false) (he : exec fetch s acts = some s1) : s1 = s := by
  cases acts with
  | nil => simp [exec] at he; exact he.symm
  | cons a as => simp [exec, step_ended fetch s a h] at he

theorem sum_map_set {α : Type} (f : α → Nat) (l : List α) (t : Nat) (x y : α)
    (h : l[t]? = some x) : ((l.set t y).map f).sum + f x = (l.map f).sum + f y := by
  obtain ⟨l1, l2, h1, _, h3⟩ := set_split y l t x h
  rw [h3, h1]
  simp only [List.map_append, List.map_cons, List.sum_append, List.sum_cons]
  omega

/-- Every action strictly decreases the weight of the state. -/
theorem step_weight (fetch : Fetcher) (s s1 : State) (a : Action)
    (h : step fetch s a = some s1) : s1.weight < s.weight := by
  cases a with
  | main =>
    simp only [step, stepMain] at h
    split at h
    · rename_i hm
      split at h <;> cases h <;> simp [State.weight, MainPc.weight, hm]
    · rename_i url rest hm
      split at h <;> cases h <;> (simp [State.weight, MainPc.weight, hm]; try omega)
    · rename_i url rest hm
      split at h
      · cases h
        simp [State.weight, MainPc.weight, hm]
      · cases h
    · rename_i url rest hm
      cases h
      simp [State.weight, MainPc.weight, hm, TaskPc.weight]
      omega
    · rename_i i hm
      split at h
      · split at h
        · cases h
          simp [State.weight, MainPc.weight, hm]
          omega
        · cases h
      · cases h
        simp [State.weight, MainPc.weight, hm]
    · cases h
  | fetch t =>
    simp only [step] at h
    split at h
    · rename_i url halive hget
      cases h
      have e : ((s.tasks.set t ⟨url, .fetched (handleUrl url (fetch t url))⟩).map
          fun t => t.pc.weight).sum + 3 = (s.tasks.map fun t => t.pc.weight).sum + 2 :=
        sum_map_set (fun t => t.pc.weight) s.tasks t ⟨url, .start⟩ _ hget
      simp only [State.weight]
      omega
    · cases h
  | add t =>
    simp only [step] at h
    split at h
    · rename_i url res halive hget
      cases h
      have e : ((s.tasks.set t ⟨url, .added res⟩).map fun t => t.pc.weight).sum + 2
          = (s.tasks.map fun t => t.pc.weight).sum + 1 :=
        sum_map_set (fun t => t.pc.weight) s.tasks t ⟨url, .fetched res⟩ _ hget
      simp only [State.weight]
      omega
    · cases h
  | release t =>
    simp only [step] at h
    split at h
    · rename_i url res halive hget
      split at h
      · cases h
        have e : ((s.tasks.set t ⟨url, .exited res⟩).map fun t => t.pc.weight).sum + 1
            = (s.tasks.map fun t => t.pc.weight).sum + 0 :=
          sum_map_set (fun t => t.pc.weight) s.tasks t ⟨url, .added res⟩ _ hget
        simp only [State.weight]
        omega
      · cases h
    · cases h
  | handoff t =>
    simp only [step] at h
    split at h
    · rename_i url res hget
      have e : ((s.tasks.set t ⟨url, .exited res⟩).map fun t => t.pc.weight).sum + 1
          = (s.tasks.map fun t => t.pc.weight).sum + 0 :=
        sum_map_set (fun t => t.pc.weight) s.tasks t ⟨url, .added res⟩ _ hget
      split at h
      · split at h
        · rename_i u rest hm
          cases h
          simp only [State.weight, MainPc.weight, hm]
          omega
        · rename_i i hm
          split at h
          · cases h
            simp only [State.weight, MainPc.weight, hm]
            omega
          · cases h
        · cases h
      · cases h
    · cases h

/-- A schedule that can be fired is no longer than the weight of the state it starts in. -/
theorem exec_weight (fetch : Fetcher) (acts : List Action) :
    ∀ s s1 : State, exec fetch s acts = some s1 → acts.length + s1.weight ≤ s.weight := by
  induction acts with
  | nil =>
    intro s s1 h
    simp [exec] at h
    subst h
    simp
  | cons a as ih =>
    intro s s1 h
    simp only [exec] at h
    cases hs : step fetch s a with
    | none => simp [hs] at h
    | some s2 =>
      simp [hs] at h
      have h1 := ih s2 s1 h
      have h2 := step_weight fetch s s2 a hs
      simp only [List.length_cons]
      omega

theorem exists_holder (tasks : List Task) (h : 0 < tasks.countP Task.holdsToken) :
    ∃ (t : Nat) (x : Task), tasks[t]? = some x ∧ x.holdsToken = true := by
  obtain ⟨x, hx, hp⟩ := List.countP_pos_iff.mp h
  obtain ⟨t, ht⟩ := List.getElem?_of_mem hx
  exact ⟨t, x, ht, hp⟩

/-- A task that holds a token can always take its next action while `main` lives. -/
theorem task_can_step (fetch : Fetcher) (s : State) (halive : s.alive = true)
    (hlen : 0 < s.semLen) (h : 0 < s.tasks.countP Task.holdsToken) :
    ∃ a, (step fetch s a).isSome = true := by
  obtain ⟨t, ⟨url, pc⟩, hget, hp⟩ := exists_holder s.tasks h
  cases pc with
  | start => exact ⟨.fetch t, by simp [step, halive, hget]⟩
  | fetched res => exact ⟨.add t, by simp [step, halive, hget]⟩
  | added res => exact ⟨.release t, by simp [step, halive, hget, hlen]⟩
  | exited res => simp [Task.holdsToken] at hp

/-- With a capacity of at least one the process never deadlocks: while `main` has not
ended, some action is enabled. -/
theorem progress (fetch : Fetcher) (lines : List String) (s : State)
    (hinv : Inv fetch lines s) (hcap : 1 ≤ s.semCap) (halive : s.alive = true) :
    ∃ a, (step fetch s a).isSome = true := by
  have htok := hinv.tokens
  have hbd := hinv.bounded
  cases hm : s.main with
  | panicked => simp [State.alive, hm] at halive
  | fatal => simp [State.alive, hm] at halive
  | done => simp [State.alive, hm] at halive
  | scan rest =>
    cases rest with
    | nil =>
      cases he : s.stdinErr with
      | none => exact ⟨.main, by simp [step, stepMain, hm, he]⟩
      | some e => exact ⟨.main, by simp [step, stepMain, hm, he]⟩
    | cons url rest =>
      by_cases hu : url = ""
      · exact ⟨.main, by simp [step, stepMain, hm, hu]⟩
      · exact ⟨.main, by simp [step, stepMain, hm, hu]⟩
  | spawn url rest => exact ⟨.main, by simp [step, stepMain, hm]⟩
  | acquire url rest =>
    by_cases hlt : s.semLen < s.semCap
    · exact ⟨.main, by simp [step, stepMain, hm, hlt]⟩
    · rw [hm] at htok
      simp only [MainPc.tokens] at htok
      exact task_can_step fetch s halive (by omega) (by omega)
  | drain i =>
    by_cases hi : i < s.semCap
    · by_cases hlt : s.semLen < s.semCap
      · exact ⟨.main, by simp [step, stepMain, hm, hi, hlt]⟩
      · rw [hm] at htok
        simp only [MainPc.tokens] at htok
        exact task_can_step fetch s halive (by omega) (by omega)
    · exact ⟨.main, by simp [step, stepMain, hm, hi]⟩

/-- From every state of a run with capacity at least one, some schedule ends the run. -/
theorem completion (fetch : Fetcher) (lines : List String) (n : Nat) :
    ∀ s : State, s.weight ≤ n → Inv fetch lines s → 1 ≤ s.semCap →
      ∃ acts s1, exec fetch s acts = some s1 ∧ s1.alive = false := by
  induction n with
  | zero =>
    intro s hw hinv hcap
    cases halive : s.alive with
    | false => exact ⟨[], s, rfl, halive⟩
    | true =>
      obtain ⟨a, ha⟩ := progress fetch lines s hinv hcap halive
      obtain ⟨s2, hs⟩ := Option.isSome_iff_exists.mp ha
      have := step_weight fetch s s2 a hs
      omega
  | succ n ih =>
    intro s hw hinv hcap
    cases halive : s.alive with
    | false => exact ⟨[], s, rfl, halive⟩
    | true =>
      obtain ⟨a, ha⟩ := progress fetch lines s hinv hcap halive
      obtain ⟨s2, hs⟩ := Option.isSome_iff_exists.mp ha
      have hlt := step_weight fetch s s2 a hs
      have hcap2 : 1 ≤ s2.semCap := by
        rw [(step_frame fetch s s2 a hs).1]
        exact hcap
      obtain ⟨acts, s1, he, hd⟩ :=
        ih s2 (by omega) (step_inv fetch lines s s2 a hinv hs) hcap2
      exact ⟨a :: acts, s1, by simp [exec, hs, he], hd⟩

/-! ## Concrete runs, evaluated -/

theorem demo_exec : exec demoFetch (init .bits64 1 demoLines none) demoSchedule = some demoFinal := by
  decide

theorem joined_exec :
    exec demoFetch (init .bits64 1 demoLines none) (demoSchedule.take 15) = some joined := by
  decide

theorem fail_exec : exec failFetch (init .bits64 1 demoLines none) demoSchedule = some failFinal := by
  decide

theorem bothStarted_exec :
    exec demoFetch (init .bits64 2 demoLines none) (List.replicate 7 Action.main)
      = some bothStarted := by
  decide

theorem blocked_exec :
    exec demoFetch (init .bits64 0 ["http://a"] none) [Action.main] = some blockedAtFirst := by
  decide

/-! ## Facts about reachable states -/

theorem init_not_alive (sz : IntSize) (k : Int) (lines : List String) (scanErr : Option String)
    (hk : k < 0) : (init sz k lines scanErr).alive = false := by
  simp [init, State.alive, hk]

theorem reachable_cases (sz : IntSize) (fetch : Fetcher) (k : Int) (lines : List String)
    (scanErr : Option String) (s : State) (h : Reachable sz fetch k lines scanErr s) :
    (k < 0 ∧ s = init sz k lines scanErr) ∨ (0 ≤ k ∧ Inv fetch lines s) := by
  by_cases hk : k < 0
  · obtain ⟨acts, hacts⟩ := h
    exact Or.inl ⟨hk, exec_ended fetch _ s acts (init_not_alive sz k lines scanErr hk) hacts⟩
  · exact Or.inr ⟨not_lt.mp hk, reachable_inv sz fetch k lines scanErr s (not_lt.mp hk) h⟩

theorem reachable_frame (sz : IntSize) (fetch : Fetcher) (k : Int) (lines : List String)
    (scanErr : Option String) (s : State) (h : Reachable sz fetch k lines scanErr s) :
    s.semCap = k.toNat ∧ s.stdinErr = scanErr := by
  obtain ⟨acts, hacts⟩ := h
  exact exec_frame fetch acts _ s hacts

theorem reachable_total (sz : IntSize) (fetch : Fetcher) (k : Int) (lines : List String)
    (scanErr : Option String) (s : State) (h : Reachable sz fetch k lines scanErr s) :
    s.goCount.total = wrapInt sz (okSum s.goCount.results) := by
  have hsz : s.intSize = sz := by
    obtain ⟨acts, hacts⟩ := h
    exact exec_intSize fetch acts _ s hacts
  rcases reachable_cases sz fetch k lines scanErr s h with ⟨_, hs⟩ | ⟨_, hinv⟩
  · subst hs
    exact (wrapInt_zero sz).symm
  · rw [← hsz]
    exact hinv.total

theorem reachable_counts (sz : IntSize) (fetch : Fetcher) (k : Int) (lines : List String)
    (scanErr : Option String) (s : State) (h : Reachable sz fetch k lines scanErr s) :
    ∀ r ∈ s.goCount.results, 0 ≤ r.count := by
  rcases reachable_cases sz fetch k lines scanErr s h with ⟨_, hs⟩ | ⟨_, hinv⟩
  · subst hs
    intro r hr
    simp [init] at hr
  · intro r hr
    obtain ⟨t, ht, happ⟩ := List.mem_filterMap.mp (hinv.stored.mem_iff.mp hr)
    obtain ⟨i, hi⟩ := List.getElem?_of_mem ht
    have hres := hinv.results i t r hi (by
      obtain ⟨url, pc⟩ := t
      cases pc <;> simp_all [Task.appended, Task.result])
    rw [hres]
    exact handleUrl_count_nonneg _ _

theorem results_unindexed (fetch : Fetcher) (lines : List String) (s : State)
    (hinv : Inv fetch lines s) :
    ∀ t ∈ s.tasks, ∀ res, t.result = some res → ∃ o, res = handleUrl t.url o := by
  intro t ht res hr
  obtain ⟨i, hi⟩ := List.getElem?_of_mem ht
  exact ⟨fetch i t.url, hinv.results i t res hi hr⟩

theorem handleUrl_url (url : String) (o : FetchOutcome) : (handleUrl url o).url = url := by
  cases o <;> rfl

theorem appended_result (t : Task) (res : urlResult) (h : t.appended = some res) :
    t.result = some res := by
  obtain ⟨url, pc⟩ := t
  cases pc <;> simp_all [Task.appended, Task.result]

theorem appended_of_released (t : Task) (h : t.holdsToken = false) :
    ∃ res, t.pc = .exited res ∧ t.appended = some res := by
  obtain ⟨url, pc⟩ := t
  cases pc <;> simp_all [Task.appended, Task.holdsToken]

theorem appended_urls (l : List Task) (hrel : ∀ t ∈ l, t.holdsToken = false)
    (hurl : ∀ t ∈ l, ∀ res, t.result = some res → res.url = t.url) :
    (l.filterMap Task.appended).map urlResult.url = l.map Task.url := by
  induction l with
  | nil => rfl
  | cons t l ih =>
    obtain ⟨res, _, hres⟩ := appended_of_released t (hrel t (List.mem_cons_self t l))
    have h1 := hurl t (List.mem_cons_self t l) res (appended_result t res hres)
    simp only [List.filterMap_cons, hres, List.map_cons, h1]
    rw [ih (fun t1 h1 => hrel t1 (List.mem_cons_of_mem t h1))
      (fun t1 h1 => hurl t1 (List.mem_cons_of_mem t h1))]

theorem okSum_all_errors (rs : List urlResult) (h : ∀ r ∈ rs, r.error ≠ none) :
    okSum rs = 0 := by
  induction rs with
  | nil => rfl
  | cons r rs ih =>
    have h1 := h r (List.mem_cons_self r rs)
    simp only [okSum, h1, if_false, zero_add]
    exact ih (fun r1 hr1 => h r1 (List.mem_cons_of_mem r hr1))

/-- Once the last loop has sent all its values, every task has released its token. -/
theorem joined_released (fetch : Fetcher) (lines : List String) (s : State)
    (hinv : Inv fetch lines s) (hd : s.main = .drain s.semCap ∨ s.main = .done) :
    ∀ t ∈ s.tasks, t.holdsToken = false := by
  have htok := hinv.tokens
  have hbd := hinv.bounded
  have hz : s.tasks.countP Task.holdsToken = 0 := by
    rcases hd with hd | hd <;> (rw [hd] at htok; simp only [MainPc.tokens] at htok; omega)
  intro t ht
  have := List.countP_eq_zero.mp hz t ht
  simpa using this

/-- The stored results of a joined run: their URLs are the non-empty lines, up to order. -/
theorem joined_results (fetch : Fetcher) (lines : List String) (s : State)
    (hinv : Inv fetch lines s) (hd : s.main = .drain s.semCap ∨ s.main = .done) :
    (s.goCount.results.map urlResult.url).Perm (nonBlank lines) := by
  have hrel := joined_released fetch lines s hinv hd
  have hurl : ∀ t ∈ s.tasks, ∀ res, t.result = some res → res.url = t.url := by
    intro t ht res hr
    obtain ⟨o, ho⟩ := results_unindexed fetch lines s hinv t ht res hr
    rw [ho]
    exact handleUrl_url t.url o
  have h1 := appended_urls s.tasks hrel hurl
  have h2 : s.main.pendingUrls = [] := by
    rcases hd with hd | hd <;> simp [hd, MainPc.pendingUrls]
  have h3 := hinv.urls
  rw [h2, List.append_nil] at h3
  have h4 := hinv.stored.map urlResult.url
  rw [h1, h3] at h4
  exact h4

/-- A run with capacity at least one and no scanner error can always be completed. -/
theorem run_completes (sz : IntSize) (fetch : Fetcher) (k : Int) (lines : List String) (hk : 1 ≤ k) :
    ∃ acts s, exec fetch (init sz k lines none) acts = some s ∧ s.main = .done := by
  have hinv := inv_init sz fetch k lines none (by omega)
  have hcap : 1 ≤ (init sz k lines none).semCap := by
    simp only [init]
    omega
  obtain ⟨acts, s, he, hd⟩ := completion fetch lines _ _ (Nat.le_refl _) hinv hcap
  refine ⟨acts, s, he, ?_⟩
  have hinv1 := exec_inv fetch lines acts _ s hinv he
  have herr := (exec_frame fetch acts _ s he).2
  cases hm : s.main with
  | done => rfl
  | panicked => exact absurd hm hinv1.notPanicked
  | fatal =>
    have := hinv1.fatal hm
    rw [herr] at this
    exact absurd rfl this
  | scan rest => simp [State.alive, hm] at hd
  | acquire u rest => simp [State.alive, hm] at hd
  | spawn u rest => simp [State.alive, hm] at hd
  | drain i => simp [State.alive, hm] at hd

theorem step_results (fetch : Fetcher) (s s1 : State) (a : Action)
    (h : step fetch s a = some s1) :
    s1.goCount = s.goCount ∨ ∃ res, s1.goCount = s.goCount.addUrlResult s.intSize res := by
  cases a with
  | main =>
    simp only [step, stepMain] at h
    split at h <;> (try split at h) <;> (try split at h) <;>
      first | (cases h; done) | (cases h; exact Or.inl rfl)
  | fetch t =>
    simp only [step] at h
    split at h <;> first | (cases h; done) | (cases h; exact Or.inl rfl)
  | add t =>
    simp only [step] at h
    split at h <;> first | (cases h; done) | (cases h; exact Or.inr ⟨_, rfl⟩)
  | release t =>
    simp only [step] at h
    split at h <;> (try split at h) <;>
      first | (cases h; done) | (cases h; exact Or.inl rfl)
  | handoff t =>
    simp only [step] at h
    split at h <;> (try split at h) <;> (try split at h) <;> (try split at h) <;>
      first | (cases h; done) | (cases h; exact Or.inl rfl)

/-- With capacity 0 no task is ever started and the store stays empty. -/
theorem step_zero_cap (fetch : Fetcher) (lines : List String) (s s1 : State) (a : Action)
    (hinv : Inv fetch lines s) (hcap : s.semCap = 0) (ht : s.tasks = [])
    (h : step fetch s a = some s1) : s1.tasks = [] ∧ s1.goCount = s.goCount := by
  have htok := hinv.tokens
  have hbd := hinv.bounded
  cases a with
  | main =>
    simp only [step, stepMain] at h
    split at h
    · split at h <;> (cases h; exact ⟨ht, rfl⟩)
    · split at h <;> (cases h; exact ⟨ht, rfl⟩)
    · split at h
      · omega
      · cases h
    · rename_i url rest hm
      rw [hm] at htok
      simp only [MainPc.tokens] at htok
      omega
    · split at h
      · omega
      · cases h
        exact ⟨ht, rfl⟩
    · cases h
  | fetch t => simp [step, ht] at h
  | add t => simp [step, ht] at h
  | release t => simp [step, ht] at h
  | handoff t => simp [step, ht] at h

theorem exec_zero_cap (fetch : Fetcher) (lines : List String) (acts : List Action) :
    ∀ s s1 : State, Inv fetch lines s → s.semCap = 0 → s.tasks = [] →
      exec fetch s acts = some s1 → s1.tasks = [] ∧ s1.goCount = s.goCount := by
  induction acts with
  | nil =>
    intro s s1 _ _ ht h
    simp [exec] at h
    subst h
    exact ⟨ht, rfl⟩
  | cons a as ih =>
    intro s s1 hinv hcap ht h
    simp only [exec] at h
    cases hs : step fetch s a with
    | none => simp [hs] at h
    | some s2 =>
      simp [hs] at h
      obtain ⟨h1, h2⟩ := step_zero_cap fetch lines s s2 a hinv hcap ht hs
      obtain ⟨h3, h4⟩ := ih s2 s1 (step_inv fetch lines s s2 a hinv hs)
        ((step_frame fetch s s2 a hs).1.trans hcap) h1 h
      exact ⟨h3, h4.trans h2⟩

theorem nonBlank_cons_nil (l : String) (ls : List String) (h : nonBlank (l :: ls) = []) :
    l = "" ∧ nonBlank ls = [] := by
  by_cases hl : l = ""
  · subst hl
    rw [nonBlank_cons_empty] at h
    exact ⟨rfl, h⟩
  · rw [nonBlank_cons_ne l ls hl] at h
    cases h

/-- With capacity 0 and only empty lines `main` runs through both loops and reports. -/
theorem blank_run_zero_cap (fetch : Fetcher) (lines : List String) :
    ∀ s : State, s.main = .scan lines → s.semCap = 0 → s.stdinErr = none →
      nonBlank lines = [] →
      ∃ acts s1, exec fetch s acts = some s1 ∧ s1.main = .done
        ∧ s1.out = s.out ++ report s.goCount := by
  induction lines with
  | nil =>
    intro s hm hcap herr _
    refine ⟨[.main, .main], { s with out := s.out ++ report s.goCount, main := .done }, ?_,
      rfl, rfl⟩
    simp [exec, step, stepMain, hm, herr, hcap]
  | cons l ls ih =>
    intro s hm hcap herr hb
    obtain ⟨hl, hls⟩ := nonBlank_cons_nil l ls hb
    subst hl
    obtain ⟨acts, s1, he, hd, ho⟩ := ih { s with main := .scan ls } rfl hcap herr hls
    refine ⟨.main :: acts, s1, ?_, hd, ho⟩
    simp [exec, step, stepMain, hm, he]

/-! ## The claims -/

/-- C1 as stated fails: where `int` has 32 bits, after 64 responses that each hold "Go"
2^25 times the exact sum of the counts is 2^31, and `total` is -2^31. -/
theorem total_wraps_around :
    okSum (storeAfter .bits32 wrapCalls).results = 2147483648
      ∧ (storeAfter .bits32 wrapCalls).total = -2147483648 := by
  have hsum : okSum (storeAfter .bits32 wrapCalls).results = 2147483648 := by
    rw [storeAfter_results]
    simp only [wrapCalls, List.map_replicate, handleUrl, bytesCount_goBody]
    rw [okSum_replicate]
    norm_num
  refine ⟨hsum, ?_⟩
  have ht := foldl_keeps_sum .bits32 wrapCalls { total := 0, results := [] }
    (wrapInt_zero .bits32).symm
  have ht1 : (storeAfter .bits32 wrapCalls).total
      = wrapInt .bits32 (okSum (storeAfter .bits32 wrapCalls).results) := ht
  rw [ht1, hsum]
  decide

/-- C1, amended: in every store obtained from the empty store by applying `addUrlResult`
to results returned by `handleUrl` (any URLs, any fetch outcomes), and in every state
the program can reach, `total` is the sum of `count` over the stored results that carry
no error, wrapped around to the range of `int`; it is that sum itself whenever the sum
is below 2^31 (32-bit `int`) or 2^63 (64-bit `int`). -/
theorem total_is_wrapped_sum (sz : IntSize) (calls : List (String × FetchOutcome))
    (fetch : Fetcher) (k : Int) (lines : List String) (scanErr : Option String) (s : State)
    (h : Reachable sz fetch k lines scanErr s) :
    (storeAfter sz calls).total = wrapInt sz (okSum (storeAfter sz calls).results)
      ∧ (okSum (storeAfter sz calls).results < sz.half →
          (storeAfter sz calls).total = okSum (storeAfter sz calls).results)
      ∧ s.goCount.total = wrapInt sz (okSum s.goCount.results)
      ∧ (okSum s.goCount.results < sz.half → s.goCount.total = okSum s.goCount.results) := by
  have h1 := foldl_keeps_sum sz calls { total := 0, results := [] } (wrapInt_zero sz).symm
  have h1a : (storeAfter sz calls).total
      = wrapInt sz (okSum (storeAfter sz calls).results) := h1
  have h2 := reachable_total sz fetch k lines scanErr s h
  have hhalf : 0 ≤ sz.half := by cases sz <;> decide
  have n1 : 0 ≤ okSum (storeAfter sz calls).results := by
    apply okSum_nonneg
    intro r hr
    rw [storeAfter_results] at hr
    obtain ⟨c, _, hc⟩ := List.mem_map.mp hr
    rw [← hc]
    exact handleUrl_count_nonneg _ _
  have n2 : 0 ≤ okSum s.goCount.results :=
    okSum_nonneg _ (reachable_counts sz fetch k lines scanErr s h)
  refine ⟨h1a, fun hlt => ?_, h2, fun hlt => ?_⟩
  · rw [h1a]
    exact wrapInt_of_bounds sz _ (by omega) hlt
  · rw [h2]
    exact wrapInt_of_bounds sz _ (by omega) hlt

theorem total_is_wrapped_sum_witness :
    Reachable .bits64 demoFetch 1 demoLines none demoFinal
      ∧ ((storeAfter .bits64 wrapCalls).total
          = wrapInt .bits64 (okSum (storeAfter .bits64 wrapCalls).results)
        ∧ (okSum (storeAfter .bits64 wrapCalls).results < IntSize.bits64.half →
            (storeAfter .bits64 wrapCalls).total
              = okSum (storeAfter .bits64 wrapCalls).results)
        ∧ demoFinal.goCount.total = wrapInt .bits64 (okSum demoFinal.goCount.results)
        ∧ (okSum demoFinal.goCount.results < IntSize.bits64.half →
            demoFinal.goCount.total = okSum demoFinal.goCount.results)) :=
  ⟨⟨demoSchedule, demo_exec⟩,
    total_is_wrapped_sum .bits64 wrapCalls demoFetch 1 demoLines none demoFinal
      ⟨demoSchedule, demo_exec⟩⟩

/-- C3: `addUrlResult` yields the previous sequence with `r` appended as last element:
the earlier entries keep their positions, the length grows by one, a series of appends
stores its results in call order, and no action of the program removes an entry. -/
theorem addUrlResult_appends (sz : IntSize) (counter : allResults) (r : urlResult)
    (rs : List urlResult) (fetch : Fetcher) (s : State) (a : Action) :
    (counter.addUrlResult sz r).results = counter.results ++ [r]
      ∧ (counter.addUrlResult sz r).results.length = counter.results.length + 1
      ∧ (counter.addUrlResult sz r).results.take counter.results.length = counter.results
      ∧ (counter.addUrlResult sz r).results[counter.results.length]? = some r
      ∧ (rs.foldl (allResults.addUrlResult sz) counter).results = counter.results ++ rs
      ∧ ∀ s1 ∈ step fetch s a, s.goCount.results <+: s1.goCount.results := by
  refine ⟨rfl, by simp [allResults.addUrlResult], by simp [allResults.addUrlResult],
    by simp [allResults.addUrlResult], foldl_addUrlResult_results sz rs counter, ?_⟩
  intro s1 hs1
  rcases step_results fetch s s1 a hs1 with h | ⟨res, h⟩
  · rw [h]
  · rw [h]
    exact List.prefix_append _ _

/-- C4: when a run with capacity at least one has finished, the store holds one result
per non-empty input line, carrying that line as its URL, so the number of results is the
number of non-empty lines; reading an empty line changes nothing but the position in the
input. Such runs do finish when every fetch returns: without scanner error some schedule
reaches the end, no reachable state with `main` still running is stuck, and no schedule
is longer than `6 * lines.length + k + 3` actions. -/
theorem finished_run_results (sz : IntSize) (fetch : Fetcher) (k : Int) (lines : List String)
    (scanErr : Option String) (acts : List Action) (s : State) (hk : 1 ≤ k)
    (he : exec fetch (init sz k lines scanErr) acts = some s) (hd : s.main = .done) :
    s.goCount.results.length = (nonBlank lines).length
      ∧ (s.goCount.results.map urlResult.url).Perm (nonBlank lines)
      ∧ (∀ (s0 : State) (rest : List String),
          step fetch { s0 with main := .scan ("" :: rest) } .main
            = some { s0 with main := .scan rest })
      ∧ (∃ acts1 s1, exec fetch (init sz k lines none) acts1 = some s1 ∧ s1.main = .done)
      ∧ (∀ acts2 s2, exec fetch (init sz k lines scanErr) acts2 = some s2 →
          (s2.alive = true → ∃ a, (step fetch s2 a).isSome = true)
            ∧ acts2.length ≤ 6 * lines.length + k.toNat + 3) := by
  have hinv := reachable_inv sz fetch k lines scanErr s (by omega) ⟨acts, he⟩
  have hp := joined_results fetch lines s hinv (Or.inr hd)
  refine ⟨?_, hp, ?_, run_completes sz fetch k lines hk, ?_⟩
  · simpa using hp.length_eq
  · intro s0 rest
    simp [step, stepMain]
  · intro acts2 s2 he2
    have hinv2 := reachable_inv sz fetch k lines scanErr s2 (by omega) ⟨acts2, he2⟩
    have hcap2 := (exec_frame fetch acts2 _ s2 he2).1
    have hw := exec_weight fetch acts2 _ s2 he2
    have hk0 : ¬ k < 0 := by omega
    refine ⟨fun halive => progress fetch lines s2 hinv2 ?_ halive, ?_⟩
    · rw [hcap2]
      simp only [init]
      omega
    · simp [init, State.weight, MainPc.weight, hk0] at hw
      omega

theorem finished_run_results_witness :
    (1 : Int) ≤ 1 ∧ exec demoFetch (init .bits64 1 demoLines none) demoSchedule = some demoFinal
      ∧ demoFinal.main = .done
      ∧ (demoFinal.goCount.results.length = (nonBlank demoLines).length
        ∧ (demoFinal.goCount.results.map urlResult.url).Perm (nonBlank demoLines)
        ∧ (∀ (s0 : State) (rest : List String),
            step demoFetch { s0 with main := .scan ("" :: rest) } .main
              = some { s0 with main := .scan rest })
        ∧ (∃ acts1 s1, exec demoFetch (init .bits64 1 demoLines none) acts1 = some s1
            ∧ s1.main = .done)
        ∧ (∀ acts2 s2, exec demoFetch (init .bits64 1 demoLines none) acts2 = some s2 →
            (s2.alive = true → ∃ a, (step demoFetch s2 a).isSome = true)
              ∧ acts2.length ≤ 6 * demoLines.length + (1 : Int).toNat + 3)) :=
  ⟨by decide, demo_exec, rfl,
    finished_run_results .bits64 demoFetch 1 demoLines none demoSchedule demoFinal (by decide)
      demo_exec rfl⟩

/-- C5: for capacity `k` of at least one, in every reachable state the channel holds at
most `k` values, every task that holds a token accounts for one of them (the others are
the values `main` itself has sent), and so at most `k` tasks hold a token. -/
theorem tokens_never_exceed (sz : IntSize) (fetch : Fetcher) (k : Int) (lines : List String)
    (scanErr : Option String) (s : State) (hk : 1 ≤ k)
    (h : Reachable sz fetch k lines scanErr s) :
    (s.semCap : Int) = k
      ∧ s.semLen ≤ s.semCap
      ∧ s.semLen = s.tasks.countP Task.holdsToken + s.main.tokens s.semCap
      ∧ ((s.tasks.countP Task.holdsToken : Nat) : Int) ≤ k := by
  have hinv := reachable_inv sz fetch k lines scanErr s (by omega) h
  have hcap := (reachable_frame sz fetch k lines scanErr s h).1
  have htok := hinv.tokens
  have hbd := hinv.bounded
  refine ⟨by omega, hbd, htok, by omega⟩

theorem tokens_never_exceed_witness :
    (1 : Int) ≤ 2 ∧ Reachable .bits64 demoFetch 2 demoLines none bothStarted
      ∧ ((bothStarted.semCap : Int) = 2
        ∧ bothStarted.semLen ≤ bothStarted.semCap
        ∧ bothStarted.semLen = bothStarted.tasks.countP Task.holdsToken
            + bothStarted.main.tokens bothStarted.semCap
        ∧ ((bothStarted.tasks.countP Task.holdsToken : Nat) : Int) ≤ 2) :=
  ⟨by decide, ⟨_, bothStarted_exec⟩,
    tokens_never_exceed .bits64 demoFetch 2 demoLines none bothStarted (by decide)
      ⟨_, bothStarted_exec⟩⟩

/-- C6: for capacity at least one, in every reachable state in which the last loop has
left its condition `i < cap(sem)` false (the report is read next) or the report is
printed, that loop has sent exactly `cap(sem)` values, no task holds a token, every
non-empty line has been admitted, every task has exited after appending, and the store
holds exactly the results of the admitted tasks, each of them the value `handleUrl`
returned to that task; nothing is printed before the report. -/
theorem report_after_join (sz : IntSize) (fetch : Fetcher) (k : Int) (lines : List String)
    (scanErr : Option String) (s : State) (hk : 1 ≤ k)
    (h : Reachable sz fetch k lines scanErr s)
    (hd : (∃ i, s.main = .drain i ∧ ¬ i < s.semCap) ∨ s.main = .done) :
    (s.main = .drain s.semCap ∨ s.main = .done)
      ∧ (∀ t ∈ s.tasks, t.holdsToken = false)
      ∧ s.tasks.map Task.url = nonBlank lines
      ∧ s.goCount.results.Perm (s.tasks.filterMap Task.appended)
      ∧ (∀ i t, s.tasks[i]? = some t →
          t.pc = .exited (handleUrl t.url (fetch i t.url))
            ∧ handleUrl t.url (fetch i t.url) ∈ s.goCount.results)
      ∧ s.goCount.results.length = s.tasks.length
      ∧ s.out = if s.main = .done then report s.goCount else [] := by
  have hinv := reachable_inv sz fetch k lines scanErr s (by omega) h
  have hd1 : s.main = .drain s.semCap ∨ s.main = .done := by
    rcases hd with ⟨i, hm, hi⟩ | hd
    · have htok := hinv.tokens
      have hbd := hinv.bounded
      rw [hm] at htok
      simp only [MainPc.tokens] at htok
      have hic : i = s.semCap := by omega
      rw [hic] at hm
      exact Or.inl hm
    · exact Or.inr hd
  have hrel := joined_released fetch lines s hinv hd1
  have hurls := hinv.urls
  have hpend : s.main.pendingUrls = [] := by
    rcases hd1 with hd | hd <;> simp [hd, MainPc.pendingUrls]
  rw [hpend, List.append_nil] at hurls
  have hlen := (joined_results fetch lines s hinv hd1).length_eq
  refine ⟨hd1, hrel, hurls, hinv.stored, ?_, ?_, hinv.output⟩
  · intro i t hi
    have hmem : t ∈ s.tasks := List.getElem?_mem hi
    obtain ⟨res, hpc, happ⟩ := appended_of_released t (hrel t hmem)
    have hr := hinv.results i t res hi (appended_result t res happ)
    rw [← hr]
    refine ⟨hpc, ?_⟩
    exact hinv.stored.mem_iff.mpr (List.mem_filterMap.mpr ⟨t, hmem, happ⟩)
  · rw [← hurls] at hlen
    simpa using hlen

theorem report_after_join_witness :
    (1 : Int) ≤ 1 ∧ Reachable .bits64 demoFetch 1 demoLines none joined
      ∧ ((∃ i, joined.main = .drain i ∧ ¬ i < joined.semCap) ∨ joined.main = .done)
      ∧ ((joined.main = .drain joined.semCap ∨ joined.main = .done)
        ∧ (∀ t ∈ joined.tasks, t.holdsToken = false)
        ∧ joined.tasks.map Task.url = nonBlank demoLines
        ∧ joined.goCount.results.Perm (joined.tasks.filterMap Task.appended)
        ∧ (∀ i t, joined.tasks[i]? = some t →
            t.pc = .exited (handleUrl t.url (demoFetch i t.url))
              ∧ handleUrl t.url (demoFetch i t.url) ∈ joined.goCount.results)
        ∧ joined.goCount.results.length = joined.tasks.length
        ∧ joined.out = if joined.main = .done then report joined.goCount else []) :=
  ⟨by decide, ⟨_, joined_exec⟩, Or.inl ⟨1, rfl, by decide⟩,
    report_after_join .bits64 demoFetch 1 demoLines none joined (by decide)
      ⟨_, joined_exec⟩ (Or.inl ⟨1, rfl, by decide⟩)⟩

/-- C7 as stated fails: with `k = 0` and an empty input the program ends normally and
prints `Total: 0`. -/
theorem zero_capacity_prints_total :
    ∃ s, exec demoFetch (init .bits64 0 [] none) [.main, .main] = some s
      ∧ s.main = .done ∧ s.out = ["Total: 0"] :=
  ⟨_, rfl, rfl, rfl⟩

/-- C7, amended: with `k` zero or negative no task is ever started and the store stays
empty, but nothing checks `k`. A negative `k` stops the program in `make`, before any
line is read and with nothing printed. With `k = 0` the only output there can be is the
single line `Total: 0`; it is printed exactly when no input line is non-empty and the
scanner ended without error; otherwise nothing is ever printed, and once `main` stands
at its first `sem <- true` no action is enabled any more. -/
theorem nonpositive_capacity (sz : IntSize) (fetch : Fetcher) (k : Int) (lines : List String)
    (scanErr : Option String) (s : State) (hk : k ≤ 0)
    (h : Reachable sz fetch k lines scanErr s) :
    s.tasks = []
      ∧ s.goCount = { total := 0, results := [] }
      ∧ (k < 0 → s = init sz k lines scanErr)
      ∧ s.out = (if s.main = .done then ["Total: 0"] else [])
      ∧ (s.main = .done → k = 0 ∧ nonBlank lines = [] ∧ scanErr = none)
      ∧ (k = 0 → nonBlank lines = [] → scanErr = none →
          ∃ acts1 s1, exec fetch (init sz k lines scanErr) acts1 = some s1
            ∧ s1.main = .done ∧ s1.out = ["Total: 0"])
      ∧ (∀ url rest, s.main = .acquire url rest → ∀ a, step fetch s a = none) := by
  have hrun : k = 0 → nonBlank lines = [] → scanErr = none →
      ∃ acts1 s1, exec fetch (init sz k lines scanErr) acts1 = some s1
        ∧ s1.main = .done ∧ s1.out = ["Total: 0"] := by
    intro h0 hb herr
    subst h0
    subst herr
    obtain ⟨acts1, s1, he1, hd1, ho1⟩ :=
      blank_run_zero_cap fetch lines (init sz 0 lines none) rfl rfl rfl hb
    exact ⟨acts1, s1, he1, hd1, by simpa [init, report] using ho1⟩
  rcases reachable_cases sz fetch k lines scanErr s h with ⟨hneg, hs⟩ | ⟨hpos, hinv⟩
  · subst hs
    have hm : (init sz k lines scanErr).main = .panicked := by simp [init, hneg]
    refine ⟨rfl, rfl, fun _ => rfl, ?_, ?_, hrun, ?_⟩
    · simp [hm]
      rfl
    · intro hdone
      rw [hm] at hdone
      cases hdone
    · intro url rest hacq
      rw [hm] at hacq
      cases hacq
  · have hk0 : k = 0 := le_antisymm hk hpos
    obtain ⟨acts, hacts⟩ := h
    have hinv0 := inv_init sz fetch k lines scanErr hpos
    have hcap0 : (init sz k lines scanErr).semCap = 0 := by simp [init, hk0]
    obtain ⟨ht, hg⟩ := exec_zero_cap fetch lines acts _ s hinv0 hcap0 rfl hacts
    have hg1 : s.goCount = { total := 0, results := [] } := hg
    have hfr := (exec_frame fetch acts _ s hacts).2
    have hcap := (exec_frame fetch acts _ s hacts).1.trans hcap0
    refine ⟨ht, hg1, fun hneg => absurd hneg (by omega), ?_, ?_, hrun, ?_⟩
    rotate_left 2
    · intro url rest hacq a
      cases a with
      | main => simp [step, stepMain, hacq, hcap]
      | fetch t => simp [step, ht]
      | add t => simp [step, ht]
      | release t => simp [step, ht]
      | handoff t => simp [step, ht]
    · have hout := hinv.output
      rw [hg1] at hout
      simpa [report] using hout
    · intro hdone
      have hurls := hinv.urls
      rw [ht, hdone] at hurls
      have herr := hinv.noErr (by simp [hdone, MainPc.pastScan])
      rw [hfr] at herr
      exact ⟨hk0, by simpa [MainPc.pendingUrls] using hurls.symm, herr⟩

theorem nonpositive_capacity_witness :
    (0 : Int) ≤ 0 ∧ Reachable .bits64 demoFetch 0 ["http://a"] none blockedAtFirst
      ∧ (blockedAtFirst.tasks = []
        ∧ blockedAtFirst.goCount = { total := 0, results := [] }
        ∧ ((0 : Int) < 0 → blockedAtFirst = init .bits64 0 ["http://a"] none)
        ∧ blockedAtFirst.out = (if blockedAtFirst.main = .done then ["Total: 0"] else [])
        ∧ (blockedAtFirst.main = .done →
            (0 : Int) = 0 ∧ nonBlank ["http://a"] = [] ∧ (none : Option String) = none)
        ∧ ((0 : Int) = 0 → nonBlank ["http://a"] = [] → (none : Option String) = none →
            ∃ acts1 s1, exec demoFetch (init .bits64 0 ["http://a"] none) acts1 = some s1
              ∧ s1.main = .done ∧ s1.out = ["Total: 0"])
        ∧ (∀ url rest, blockedAtFirst.main = .acquire url rest →
            ∀ a, step demoFetch blockedAtFirst a = none)) :=
  ⟨by decide, ⟨_, blocked_exec⟩,
    nonpositive_capacity .bits64 demoFetch 0 ["http://a"] none blockedAtFirst (by decide)
      ⟨_, blocked_exec⟩⟩

/-- C8: `handleUrl` returns a result for the given URL and exactly one case holds: if
`http.Get` or the body read failed, the result carries that error and count 0;
otherwise it carries no error and its count is the number of occurrences of "Go" in the
body, which is not negative. -/
theorem handleUrl_result (url err : String) (b : List Nat) (o : FetchOutcome) :
    (handleUrl url o).url = url
      ∧ handleUrl url (.getFailed err) = ⟨url, 0, some err⟩
      ∧ handleUrl url (.readFailed err) = ⟨url, 0, some err⟩
      ∧ handleUrl url (.body b) = ⟨url, (occurrencesGo b : Nat), none⟩
      ∧ 0 ≤ (handleUrl url o).count
      ∧ ((handleUrl url o).error = none ↔ ∃ b1, o = .body b1)
      ∧ ((handleUrl url o).error ≠ none ↔ ∃ e, o = .getFailed e ∨ o = .readFailed e) := by
  refine ⟨handleUrl_url url o, rfl, rfl, ?_, ?_, ?_, ?_⟩
  · simp [handleUrl, bytesCount_go_eq]
  · cases o <;> simp [handleUrl]
  · cases o <;> simp [handleUrl]
  · cases o <;> simp [handleUrl]

/-- C9: if every fetch fails, then after a run with capacity at least one the store
holds one result per non-empty input line, every stored result carries an error, and
`total` is 0. -/
theorem all_fetches_fail (sz : IntSize) (fetch : Fetcher) (k : Int) (lines : List String)
    (scanErr : Option String) (acts : List Action) (s : State) (hk : 1 ≤ k)
    (hf : ∀ t url, ∃ err, fetch t url = .getFailed err ∨ fetch t url = .readFailed err)
    (he : exec fetch (init sz k lines scanErr) acts = some s) (hd : s.main = .done) :
    s.goCount.results.length = (nonBlank lines).length
      ∧ (s.goCount.results.map urlResult.url).Perm (nonBlank lines)
      ∧ (∀ r ∈ s.goCount.results, r.error ≠ none)
      ∧ s.goCount.total = 0 := by
  have hinv := reachable_inv sz fetch k lines scanErr s (by omega) ⟨acts, he⟩
  have hp := joined_results fetch lines s hinv (Or.inr hd)
  have herrs : ∀ r ∈ s.goCount.results, r.error ≠ none := by
    intro r hr
    obtain ⟨t, ht, happ⟩ := List.mem_filterMap.mp (hinv.stored.mem_iff.mp hr)
    obtain ⟨i, hi⟩ := List.getElem?_of_mem ht
    have hres := hinv.results i t r hi (appended_result t r happ)
    obtain ⟨err, hf1 | hf1⟩ := hf i t.url <;> simp [hres, hf1, handleUrl]
  refine ⟨by simpa using hp.length_eq, hp, herrs, ?_⟩
  rw [hinv.total, okSum_all_errors _ herrs]
  exact wrapInt_zero _

theorem all_fetches_fail_witness :
    (1 : Int) ≤ 1
      ∧ (∀ t url, ∃ err,
          failFetch t url = .getFailed err ∨ failFetch t url = .readFailed err)
      ∧ exec failFetch (init .bits64 1 demoLines none) demoSchedule = some failFinal
      ∧ failFinal.main = .done
      ∧ (failFinal.goCount.results.length = (nonBlank demoLines).length
        ∧ (failFinal.goCount.results.map urlResult.url).Perm (nonBlank demoLines)
        ∧ (∀ r ∈ failFinal.goCount.results, r.error ≠ none)
        ∧ failFinal.goCount.total = 0) :=
  ⟨by decide, fun _ _ => ⟨"connection refused", Or.inl rfl⟩, fail_exec, rfl,
    all_fetches_fail .bits64 failFetch 1 demoLines none demoSchedule failFinal (by decide)
      (fun _ _ => ⟨"connection refused", Or.inl rfl⟩) fail_exec rfl⟩

/-- C10: `String` renders `<url>: Error '<message>'` when an error is present and
`Count for <url>: <n>` with `n` in decimal otherwise; the output of a finished run is one
such line per stored result, in stored order, followed by the line `Total: <total>`. -/
theorem report_format (sz : IntSize) (fetch : Fetcher) (k : Int) (lines : List String)
    (scanErr : Option String) (acts : List Action) (s : State)
    (he : exec fetch (init sz k lines scanErr) acts = some s) (hd : s.main = .done) :
    (∀ url n msg, urlResult.String ⟨url, n, some msg⟩ = url ++ ": Error '" ++ msg ++ "'")
      ∧ (∀ url n, urlResult.String ⟨url, n, none⟩ = "Count for " ++ url ++ ": " ++ toString n)
      ∧ (∀ m : Nat, toString (Int.ofNat m) = (Nat.toDigits 10 m).asString)
      ∧ (∀ m : Nat, toString (Int.negSucc m) = "-" ++ (Nat.toDigits 10 (m + 1)).asString)
      ∧ urlResult.String ⟨"http://a", 3, none⟩ = "Count for http://a: 3"
      ∧ report ⟨3, []⟩ = ["Total: 3"]
      ∧ s.out = s.goCount.results.map urlResult.String
          ++ ["Total: " ++ toString s.goCount.total] := by
  refine ⟨fun _ _ _ => rfl, fun _ _ => rfl, fun _ => rfl, fun _ => rfl, by decide,
    by decide, ?_⟩
  rcases reachable_cases sz fetch k lines scanErr s ⟨acts, he⟩ with ⟨hneg, hs⟩ | ⟨_, hinv⟩
  · subst hs
    simp [init, hneg] at hd
  · have hout := hinv.output
    rw [hd] at hout
    simpa [report] using hout

theorem report_format_witness :
    exec demoFetch (init .bits64 1 demoLines none) demoSchedule = some demoFinal
      ∧ demoFinal.main = .done
      ∧ ((∀ url n msg,
            urlResult.String ⟨url, n, some msg⟩ = url ++ ": Error '" ++ msg ++ "'")
        ∧ (∀ url n,
            urlResult.String ⟨url, n, none⟩ = "Count for " ++ url ++ ": " ++ toString n)
        ∧ (∀ m : Nat, toString (Int.ofNat m) = (Nat.toDigits 10 m).asString)
        ∧ (∀ m : Nat, toString (Int.negSucc m) = "-" ++ (Nat.toDigits 10 (m + 1)).asString)
        ∧ urlResult.String ⟨"http://a", 3, none⟩ = "Count for http://a: 3"
        ∧ report ⟨3, []⟩ = ["Total: 3"]
        ∧ demoFinal.out = demoFinal.goCount.results.map urlResult.String
            ++ ["Total: " ++ toString demoFinal.goCount.total]) :=
  ⟨demo_exec, rfl, report_format .bits64 demoFetch 1 demoLines none demoSchedule demoFinal demo_exec rfl⟩

end WbTest
